import Mathlib

/-!
Shallow embedding of the `cpp-simple-vector` repository
(`src/simple-vector/simple_vector.h` and `src/simple-vector/array_ptr.h`):
a growable contiguous sequence container over a raw owning buffer.

Modelling conventions:
* A heap buffer is a `List α`; the element at offset `i` is entry `i`.
* `new Type[n]` default-initializes its slots; their contents are modelled by
  an explicit `uninit` parameter, so no theorem can depend on a particular
  choice of fresh-slot contents.
* `Type()` (the element type's default value) is an explicit `dflt` parameter.
* `std::move` of an element is modelled as a copy: the embedding is over
  values, and for copyable value types (the repository's usage is `int`-like)
  a moved-from element keeps its value.
* A write past the end of a buffer is C++ undefined behaviour; the one
  operation that can perform such a write (`Fill`, called from `Resize`)
  returns `Option`, with `none` for the out-of-bounds write.  Reads past the
  end (never performed by the operations below on well-formed states)
  truncate.
* `assert` has release semantics (a no-op); each assert is recorded instead as
  a precondition hypothesis in the theorems that need it.
-/

/-- `ArrayPtr<Type> temp(n)` (`array_ptr.h`, lines 21-28): a fresh heap buffer
of `n` default-initialized slots; `uninit` stands for their contents. -/
def alloc (uninit : α) (n : Nat) : List α := List.replicate n uninit

/-- Overwrite the slots `dst[d], dst[d+1], ...` with the entries of `repl`,
as done by `std::copy` / `std::move` / `std::copy_backward` /
`std::move_backward` into a destination buffer (the overlap-safe variants
produce exactly this result).  Writes are truncated at `dst`'s end; call
sites either stay in bounds or check the bound first. -/
def writeAt (dst : List α) (d : Nat) (repl : List α) : List α :=
  dst.take d ++ repl.take (dst.length - d) ++ dst.drop (d + repl.length)

/-- The half-open source range `buf[s..e)` read by `std::copy`/`std::move`
(truncated at the buffer's end; call sites stay in bounds). -/
def bufSlice (buf : List α) (s e : Nat) : List α := (buf.drop s).take (e - s)

/-- `SimpleVector<Type>`: the owned buffer `items_` plus the `size_` and
`capacity_` counters (`simple_vector.h`, lines 343-346).  The buffer's
physical length is carried by `items` itself; well-formed states have
`capacity ≤ items.length` (with equality everywhere except a moved-from
source, whose freshly swapped-in buffer keeps the old physical length while
both counters are zero). -/
structure SimpleVector (α : Type) where
  items : List α
  size : Nat
  capacity : Nat
deriving DecidableEq, Repr

namespace SimpleVector

variable {α : Type}

/-- Default constructor (line 28): empty, capacity 0, no allocation. -/
def mkDefault : SimpleVector α := ⟨[], 0, 0⟩

/-- `SimpleVector(size, value)` (lines 40-46): allocate `size` slots and
`std::fill` every one of them with `value`; size and capacity both `size`. -/
def mkFill (n : Nat) (value : α) : SimpleVector α :=
  ⟨List.replicate n value, n, n⟩

/-- `SimpleVector(size)` (lines 35-37): delegates to the fill constructor
with `Type()`. -/
def mkSized (dflt : α) (n : Nat) : SimpleVector α := mkFill n dflt

/-- Initializer-list constructor (lines 50-56): buffer of the list's length,
elements copied in order; size and capacity equal the length. -/
def mkInitList (l : List α) : SimpleVector α := ⟨l, l.length, l.length⟩

/-- `GetSize` (lines 80-82). -/
def GetSize (v : SimpleVector α) : Nat := v.size

/-- `GetCapacity` (lines 86-88). -/
def GetCapacity (v : SimpleVector α) : Nat := v.capacity

/-- `IsEmpty` (lines 92-94). -/
def IsEmpty (v : SimpleVector α) : Bool := v.size == 0

/-- Copy constructor (lines 59-65): fresh buffer of `other.size_` slots, then
`std::copy(other.begin(), other.end(), items_.Get())`; size and capacity both
become `other.size_`. -/
def copyOf (uninit : α) (other : SimpleVector α) : SimpleVector α :=
  ⟨writeAt (alloc uninit other.size) 0 (bufSlice other.items 0 other.size),
   other.size, other.size⟩

/-- `swap` (lines 324-328): exchanges the buffer and both counters, i.e. the
two states trade places. -/
def swapVec (a b : SimpleVector α) : SimpleVector α × SimpleVector α := (b, a)

/-- Move constructor (lines 72-76): the new vector starts as
`items_(other.capacity_)` with zero counters (a fresh buffer of
`other.capacity_` default-initialized slots) and then swaps with `other`.
First component: the new vector; second: `other` afterwards. -/
def moveCtor (uninit : α) (other : SimpleVector α) :
    SimpleVector α × SimpleVector α :=
  swapVec ⟨alloc uninit other.capacity, 0, 0⟩ other

/-- `At(index)` (lines 111-118 / 122-129): `none` models the thrown
`std::out_of_range`; otherwise the value of the returned reference,
`items_[index]` (`junk` stands for the never-exercised unchecked read past
the buffer's end). -/
def At (junk : α) (index : Nat) (v : SimpleVector α) : Option α :=
  if index ≥ v.size then none
  else some (v.items.getD index junk)

/-- `Clear` (lines 133-135): zero the size, touch nothing else. -/
def Clear (v : SimpleVector α) : SimpleVector α := { v with size := 0 }

/-- `Fill(first, last)` (lines 348-354): overwrite the buffer's slots
`[start, stop)` with `std::move(Type())`.  A write past the buffer's end is
undefined behaviour: `none`.  (The debug `assert(first < last)` is a release
no-op; an empty range writes nothing.) -/
def Fill (dflt : α) (buf : List α) (start stop : Nat) : Option (List α) :=
  if start < stop ∧ buf.length < stop then none
  else some (writeAt buf start (List.replicate (stop - start) dflt))

/-- `Resize(new_size)` (lines 139-167), as three sequential `if`s:
`if (new_size <= size_) size_ = new_size;` then
`if (new_size <= capacity_) Fill(items_ + size_, items_ + size_ + new_size);`
(note: the already-updated `size_`), then
`if (new_size > capacity_)` grow: fresh default-filled buffer of
`max(new_size, capacity_ * 2)`, `std::move` the old `[0, capacity_)` slots
into its front, swap it in, update both counters. -/
def Resize (dflt uninit : α) (new_size : Nat) (v : SimpleVector α) :
    Option (SimpleVector α) :=
  let v1 := if new_size ≤ v.size then { v with size := new_size } else v
  let step2 : Option (SimpleVector α) :=
    if new_size ≤ v1.capacity then
      (Fill dflt v1.items v1.size (v1.size + new_size)).map fun b =>
        { v1 with items := b }
    else some v1
  step2.bind fun v2 =>
    if new_size > v2.capacity then
      (Fill dflt (alloc uninit (max new_size (v2.capacity * 2))) 0
          (max new_size (v2.capacity * 2))).map fun temp =>
        ⟨writeAt temp 0 (bufSlice v2.items 0 v2.capacity), new_size,
         max new_size (v2.capacity * 2)⟩
    else some v2

/-- `PushBack` (lines 232-251); the copy and move overloads perform the same
writes on values.  If `size_ < capacity_`: write in place at `size_` and
increment.  If `size_ == capacity_`: `Resize(capacity_ + 1)` and then write
at `size_ - 1`.  Otherwise (unreachable on well-formed states) the `if` /
`else if` chain falls through and nothing happens. -/
def PushBack (dflt uninit : α) (item : α) (v : SimpleVector α) :
    Option (SimpleVector α) :=
  if v.size < v.capacity then
    some { v with items := writeAt v.items v.size [item], size := v.size + 1 }
  else if v.size = v.capacity then
    (Resize dflt uninit (v.capacity + 1) v).map fun w =>
      { w with items := writeAt w.items (w.size - 1) [item] }
  else
    some v

/-- `Insert(pos, const Type&)` (lines 257-276), with `count = pos - begin()`.
In-place branch: `std::copy_backward` shifts `[count, size_)` one slot right,
then `value` is assigned through `pos` (offset `count`).  Full branch: fresh
buffer of `max(size_ + 1, capacity_ * 2)`; copy the prefix `[0, count)`, put
`value` at `count`, copy the suffix `[count, size_)` after it; swap in.
`++size_`; the function returns `begin() + count`, modelled as the first
component. -/
def InsertCopy (uninit : α) (count : Nat) (value : α) (v : SimpleVector α) :
    Nat × SimpleVector α :=
  if v.size < v.capacity then
    let b := writeAt v.items (count + 1) (bufSlice v.items count v.size)
    let b := writeAt b count [value]
    (count, { v with items := b, size := v.size + 1 })
  else
    let new_capacity := max (v.size + 1) (v.capacity * 2)
    let b := alloc uninit new_capacity
    let b := writeAt b 0 (bufSlice v.items 0 count)
    let b := writeAt b count [value]
    let b := writeAt b (count + 1) (bufSlice v.items count v.size)
    (count, ⟨b, v.size + 1, new_capacity⟩)

/-- `Insert(pos, Type&&)` (lines 278-303), with `count = pos - items_.Get()`.
`capacity_ == 0` branch: fresh one-slot buffer, `temp[count] = move(value)`,
swap, `++capacity_`.  In-place branch: `std::move_backward` shifts
`[count, size_)` one slot right, write `value` at `count`.  Full branch:
fresh buffer of `max(size_ + 1, capacity_ * 2)`; `std::move` all of
`[0, size_)` to its front, `std::move_backward` `[count, size_)` to end at
`size_ + 1` (element moves are value copies here), then `temp[count] =
move(value)`; swap in.  `++size_`; returns `&items_[count]`. -/
def InsertMove (uninit : α) (count : Nat) (value : α) (v : SimpleVector α) :
    Nat × SimpleVector α :=
  if v.capacity = 0 then
    let b := writeAt (alloc uninit 1) count [value]
    (count, ⟨b, v.size + 1, v.capacity + 1⟩)
  else if v.size < v.capacity then
    let b := writeAt v.items (count + 1) (bufSlice v.items count v.size)
    let b := writeAt b count [value]
    (count, { v with items := b, size := v.size + 1 })
  else
    let new_capacity := max (v.size + 1) (v.capacity * 2)
    let b := alloc uninit new_capacity
    let b := writeAt b 0 (bufSlice v.items 0 v.size)
    let b := writeAt b (count + 1) (bufSlice v.items count v.size)
    let b := writeAt b count [value]
    (count, ⟨b, v.size + 1, new_capacity⟩)

/-- `PopBack` (lines 306-309): requires non-empty (debug assert); `--size_`,
modelled on `Nat` (callers satisfy `0 < size`). -/
def PopBack (v : SimpleVector α) : SimpleVector α := { v with size := v.size - 1 }

/-- `Erase(pos)` (lines 312-320), `count = pos - items_.Get()`: `std::move`
shifts `[count + 1, size_)` one slot left, `--size_`, returns
`&items_[count]` (the first component). -/
def Erase (count : Nat) (v : SimpleVector α) : Nat × SimpleVector α :=
  (count,
   { v with items := writeAt v.items count (bufSlice v.items (count + 1) v.size),
            size := v.size - 1 })

/-- `Reserve(new_capacity)` (lines 332-341): if `new_capacity > capacity_`,
fresh buffer of exactly `new_capacity` slots, copy `[0, size_)` into it when
`size_ > 0`, swap it in, update the capacity; otherwise do nothing. -/
def Reserve (uninit : α) (new_capacity : Nat) (v : SimpleVector α) :
    SimpleVector α :=
  if new_capacity > v.capacity then
    let temp := alloc uninit new_capacity
    let temp := if v.size > 0 then writeAt temp 0 (bufSlice v.items 0 v.size)
      else temp
    { v with items := temp, capacity := new_capacity }
  else v

/-- `SimpleVector(ReserveProxyObj)` (lines 67-69): default-initialized
members, then `Reserve(obj.capacity_to_reserve_)`. -/
def mkReserved (uninit : α) (n : Nat) : SimpleVector α :=
  Reserve uninit n mkDefault

/-- Copy assignment (lines 209-215): the `this != &rhs` guard is the `self`
flag; on a distinct source, copy-and-swap leaves the target equal to a fresh
copy of `rhs` (old storage destroyed with the temporary). -/
def assignCopy (uninit : α) (self : Bool) (dst src : SimpleVector α) :
    SimpleVector α :=
  if self then dst else copyOf uninit src

/-- Move assignment (lines 218-228): the `this != &rhs` guard is the `self`
flag; on a distinct source the target adopts `rhs`'s buffer and counters and
`rhs` is reset to the empty state (buffer moved away — its pointer nulled —
and both counters zeroed).  First component: target afterwards; second:
source afterwards. -/
def assignMove (self : Bool) (dst src : SimpleVector α) :
    SimpleVector α × SimpleVector α :=
  if self then (dst, src)
  else (⟨src.items, src.size, src.capacity⟩, ⟨[], 0, 0⟩)

/-- `operator==` (lines 362-367): the `&lhs == &rhs` short-circuit is the
`self` flag; otherwise equal sizes and `std::equal` of `lhs`'s live range
against `rhs`'s first `lhs.GetSize()` slots. -/
def eqVec [DecidableEq α] (self : Bool) (lhs rhs : SimpleVector α) : Bool :=
  if self then true
  else decide (GetSize lhs = GetSize rhs)
    && decide (bufSlice lhs.items 0 (GetSize lhs) = bufSlice rhs.items 0 (GetSize lhs))

/-- `PushBack` folded over a list of values, left to right (a sequence of
`pushBack` calls). -/
def pushMany (dflt uninit : α) (l : List α) (v : SimpleVector α) :
    Option (SimpleVector α) :=
  match l with
  | [] => some v
  | x :: xs => (PushBack dflt uninit x v).bind (pushMany dflt uninit xs)

/-- States reachable from the public constructors through the public
operations, each operation taken with its documented (asserted)
preconditions.  `Option`-valued operations contribute a state only when they
complete without undefined behaviour. -/
inductive Reachable (dflt uninit : α) : SimpleVector α → Prop where
  | dflt_ctor : Reachable dflt uninit mkDefault
  | sized (n : Nat) : Reachable dflt uninit (mkSized dflt n)
  | fill (n : Nat) (value : α) : Reachable dflt uninit (mkFill n value)
  | init_list (l : List α) : Reachable dflt uninit (mkInitList l)
  | reserved (n : Nat) : Reachable dflt uninit (mkReserved uninit n)
  | copy_ctor (v : SimpleVector α) : Reachable dflt uninit v →
      Reachable dflt uninit (copyOf uninit v)
  | move_ctor_new (v : SimpleVector α) : Reachable dflt uninit v →
      Reachable dflt uninit (moveCtor uninit v).1
  | move_ctor_src (v : SimpleVector α) : Reachable dflt uninit v →
      Reachable dflt uninit (moveCtor uninit v).2
  | push (x : α) (v w : SimpleVector α) : Reachable dflt uninit v →
      PushBack dflt uninit x v = some w → Reachable dflt uninit w
  | pop (v : SimpleVector α) : Reachable dflt uninit v → 0 < v.size →
      Reachable dflt uninit (PopBack v)
  | insert_copy (count : Nat) (x : α) (v : SimpleVector α) :
      Reachable dflt uninit v → count ≤ v.size →
      Reachable dflt uninit (InsertCopy uninit count x v).2
  | insert_move (count : Nat) (x : α) (v : SimpleVector α) :
      Reachable dflt uninit v → count ≤ v.size →
      Reachable dflt uninit (InsertMove uninit count x v).2
  | erase (count : Nat) (v : SimpleVector α) : Reachable dflt uninit v →
      count < v.size → Reachable dflt uninit (Erase count v).2
  | resize (n : Nat) (v w : SimpleVector α) : Reachable dflt uninit v →
      Resize dflt uninit n v = some w → Reachable dflt uninit w
  | reserve (n : Nat) (v : SimpleVector α) : Reachable dflt uninit v →
      Reachable dflt uninit (Reserve uninit n v)
  | clear (v : SimpleVector α) : Reachable dflt uninit v →
      Reachable dflt uninit (Clear v)
  | swap_fst (a b : SimpleVector α) : Reachable dflt uninit a →
      Reachable dflt uninit b → Reachable dflt uninit (swapVec a b).1
  | swap_snd (a b : SimpleVector α) : Reachable dflt uninit a →
      Reachable dflt uninit b → Reachable dflt uninit (swapVec a b).2
  | assign_copy (self : Bool) (dst src : SimpleVector α) :
      Reachable dflt uninit dst → Reachable dflt uninit src →
      Reachable dflt uninit (assignCopy uninit self dst src)
  | assign_move_dst (self : Bool) (dst src : SimpleVector α) :
      Reachable dflt uninit dst → Reachable dflt uninit src →
      Reachable dflt uninit (assignMove self dst src).1
  | assign_move_src (self : Bool) (dst src : SimpleVector α) :
      Reachable dflt uninit dst → Reachable dflt uninit src →
      Reachable dflt uninit (assignMove self dst src).2

end SimpleVector

/-- The insertion postcondition claimed by the spec for `Insert(pos, value)`
with `count = pos - begin()`: the returned position is `count`, the size
grows by exactly one, the prefix `[0, count)` is untouched, `value` sits at
`count`, and the former suffix `[count, size)` is shifted one slot right. -/
def InsertSpec {α : Type} (junk : α) (count : Nat) (value : α)
    (v : SimpleVector α) (r : Nat × SimpleVector α) : Prop :=
  r.1 = count ∧
  r.2.size = v.size + 1 ∧
  (∀ i, i < count → r.2.items.getD i junk = v.items.getD i junk) ∧
  r.2.items.getD count junk = value ∧
  (∀ i, count < i → i ≤ v.size →
    r.2.items.getD i junk = v.items.getD (i - 1) junk)

section BufferLemmas

variable {α : Type}

theorem alloc_length (u : α) (n : Nat) : (alloc u n).length = n := by
  simp [alloc]

theorem writeAt_length (dst repl : List α) (d : Nat) :
    (writeAt dst d repl).length = dst.length := by
  simp only [writeAt, List.length_append, List.length_take, List.length_drop]
  omega

theorem bufSlice_length (buf : List α) (s e : Nat) :
    (bufSlice buf s e).length = min (e - s) (buf.length - s) := by
  simp [bufSlice]

theorem writeAt_eq (dst repl : List α) (d : Nat)
    (h : d + repl.length ≤ dst.length) :
    writeAt dst d repl = dst.take d ++ repl ++ dst.drop (d + repl.length) := by
  have h2 : repl.length ≤ dst.length - d := by omega
  unfold writeAt
  rw [List.take_of_length_le h2]

theorem writeAt_zero (dst repl : List α) (h : repl.length ≤ dst.length) :
    writeAt dst 0 repl = repl ++ dst.drop repl.length := by
  rw [writeAt_eq dst repl 0 (by omega)]
  simp

theorem getElem?_bufSlice (buf : List α) (s e i : Nat) :
    (bufSlice buf s e)[i]? = if i < e - s then buf[s + i]? else none := by
  simp [bufSlice, List.getElem?_take, List.getElem?_drop]

theorem getElem?_writeAt (dst repl : List α) (d : Nat)
    (h : d + repl.length ≤ dst.length) (i : Nat) :
    (writeAt dst d repl)[i]? =
      if d ≤ i ∧ i < d + repl.length then repl[i - d]? else dst[i]? := by
  rw [writeAt_eq dst repl d h, List.append_assoc]
  rw [List.getElem?_append]
  rw [List.length_take]
  rcases Nat.lt_or_ge i d with hi | hi
  · rw [if_pos (by omega), List.getElem?_take, if_pos hi, if_neg (by omega)]
  · rw [if_neg (by omega), List.getElem?_append]
    rcases Nat.lt_or_ge i (d + repl.length) with hi2 | hi2
    · rw [if_pos (by omega), if_pos (by omega)]
      congr 1
      omega
    · rw [if_neg (by omega), if_neg (by omega), List.getElem?_drop]
      congr 1
      omega

theorem getD_eq (l : List α) (i : Nat) (j : α) : l.getD i j = l[i]?.getD j :=
  List.getD_eq_getElem?_getD l i j

end BufferLemmas

section ResizeLemmas

variable {α : Type}

/-- `Fill` over the whole of a fresh buffer succeeds and yields the
default-filled buffer. -/
theorem Fill_alloc (dflt uninit : α) (n : Nat) :
    SimpleVector.Fill dflt (alloc uninit n) 0 n = some (List.replicate n dflt) := by
  unfold SimpleVector.Fill
  rw [if_neg (by simp [alloc])]
  congr 1
  rw [writeAt_zero _ _ (by simp [alloc])]
  simp [alloc]

/-- `Resize` in the shrink case `new_size ≤ size_`: the size is set first and
then `Fill` runs over `[new_size, new_size + new_size)` of the old buffer. -/
theorem Resize_le_size (dflt uninit : α) (n : Nat) (it : List α) (sz cp : Nat)
    (h1 : n ≤ sz) (h2 : sz ≤ cp) :
    SimpleVector.Resize dflt uninit n ⟨it, sz, cp⟩ =
      (SimpleVector.Fill dflt it n (n + n)).map fun b => ⟨b, n, cp⟩ := by
  simp only [SimpleVector.Resize, if_pos h1, if_pos (show n ≤ cp by omega)]
  cases hF : SimpleVector.Fill dflt it n (n + n) with
  | none => simp [hF]
  | some b =>
    simp only [Option.map_some', Option.some_bind]
    rw [if_neg (by show ¬ cp < n; omega)]

/-- `Resize` in the grow-in-place case `size_ < new_size ≤ capacity_`:
the size is left alone and `Fill` runs over `[size_, size_ + new_size)`. -/
theorem Resize_inplace (dflt uninit : α) (n : Nat) (it : List α) (sz cp : Nat)
    (h1 : sz < n) (h2 : n ≤ cp) :
    SimpleVector.Resize dflt uninit n ⟨it, sz, cp⟩ =
      (SimpleVector.Fill dflt it sz (sz + n)).map fun b => ⟨b, sz, cp⟩ := by
  simp only [SimpleVector.Resize, if_neg (show ¬ n ≤ sz by omega), if_pos h2]
  cases hF : SimpleVector.Fill dflt it sz (sz + n) with
  | none => simp [hF]
  | some b =>
    simp only [Option.map_some', Option.some_bind]
    rw [if_neg (by show ¬ cp < n; omega)]

/-- `Resize` in the grow-storage case `new_size > capacity_`: a fresh
default-filled buffer of `max(new_size, capacity_ * 2)` receives the old
`[0, capacity_)` slots; both counters update. -/
theorem Resize_grow (dflt uninit : α) (n : Nat) (it : List α) (sz cp : Nat)
    (h2 : cp < n) :
    SimpleVector.Resize dflt uninit n ⟨it, sz, cp⟩ =
      some ⟨writeAt (List.replicate (max n (cp * 2)) dflt) 0 (bufSlice it 0 cp),
            n, max n (cp * 2)⟩ := by
  by_cases h1 : n ≤ sz
  · simp [SimpleVector.Resize, if_pos h1, if_neg (show ¬ n ≤ cp by omega),
      if_pos (show cp < n by omega), Fill_alloc]
  · simp [SimpleVector.Resize, if_neg h1, if_neg (show ¬ n ≤ cp by omega),
      if_pos (show cp < n by omega), Fill_alloc]

/-- Whatever `Resize` returns, the `size ≤ capacity` invariant is preserved. -/
theorem Resize_inv (dflt uninit : α) (n : Nat) (v w : SimpleVector α)
    (hv : v.size ≤ v.capacity)
    (hw : SimpleVector.Resize dflt uninit n v = some w) :
    w.size ≤ w.capacity := by
  obtain ⟨it, sz, cp⟩ := v
  have hv2 : sz ≤ cp := hv
  rcases le_or_lt n sz with h1 | h1
  · rw [Resize_le_size dflt uninit n it sz cp h1 hv2] at hw
    cases hF : SimpleVector.Fill dflt it n (n + n) with
    | none => rw [hF] at hw; cases hw
    | some b =>
      rw [hF] at hw
      cases hw
      show n ≤ cp
      omega
  · rcases le_or_lt n cp with h2 | h2
    · rw [Resize_inplace dflt uninit n it sz cp h1 h2] at hw
      cases hF : SimpleVector.Fill dflt it sz (sz + n) with
      | none => rw [hF] at hw; cases hw
      | some b =>
        rw [hF] at hw
        cases hw
        exact hv2
    · rw [Resize_grow dflt uninit n it sz cp h2] at hw
      cases hw
      show n ≤ max n (cp * 2)
      omega

end ResizeLemmas

/-- C1: the claim states that for `size < new_size ≤ capacity`,
`Resize(new_size)` overwrites exactly `[size, new_size)` with the default
value and sets the size to `new_size`.  The code does neither: the
grow-in-place branch of `Resize` never updates `size_`, and it fills
`[size_, size_ + new_size)` instead of `[size_, new_size)`.  On
`items = [5,6,7,8]`, `size = 1`, `capacity = 4` (default value `0`, fresh
slots `9`), `Resize(3)` returns size `1` (claim: `3`) and also overwrites
slot `3` (claim: slots `[1,3)` only, slot 3 keeping `8`). -/
theorem C1_resize_grow_in_place_bug :
    SimpleVector.Resize 0 9 3 (⟨[5, 6, 7, 8], 1, 4⟩ : SimpleVector Int)
      = some ⟨[5, 0, 0, 0], 1, 4⟩ := by decide

/-- C2: the claim states that for `new_size ≤ size`, `Resize(new_size)` only
lowers the size, leaving every stored slot untouched and never writing
outside the allocated capacity.  The code, after lowering the size, runs
`Fill` over `[new_size, new_size + new_size)`: on `items = [5,6,7,8]`,
`size = 2`, `capacity = 4`, `Resize(1)` overwrites the retained slot `1`
with the default value; and on `items = [5,6,7]`, `size = capacity = 3`,
`Resize(2)` writes slot `3`, past the allocated capacity (undefined
behaviour, modelled as `none`). -/
theorem C2_resize_shrink_bug :
    SimpleVector.Resize 0 9 1 (⟨[5, 6, 7, 8], 2, 4⟩ : SimpleVector Int)
        = some ⟨[5, 0, 7, 8], 1, 4⟩ ∧
    SimpleVector.Resize 0 9 2 (⟨[5, 6, 7], 3, 3⟩ : SimpleVector Int) = none :=
  ⟨by decide, by decide⟩

/-- C4: `At(index)` fails with `std::out_of_range` (modelled `none`) exactly
when `index ≥ size`, and otherwise returns the element at `index`.  `At`
only reads the state — in this embedding it is a pure observation, so size,
capacity and elements are untouched in both cases. -/
theorem C4_at_checked_access (junk : α) (v : SimpleVector α) (index : Nat) :
    (SimpleVector.At junk index v = none ↔ v.size ≤ index) ∧
    (SimpleVector.At junk index v = some (v.items.getD index junk) ↔
      index < v.size) := by
  unfold SimpleVector.At
  by_cases h : v.size ≤ index
  · rw [if_pos h]
    refine ⟨by simp [h], ?_⟩
    constructor
    · intro hc
      cases hc
    · intro hlt
      omega
  · rw [if_neg h]
    exact ⟨by simp [h], by simp; omega⟩

/-- C5: after a move transfer (move construction or move assignment on
distinct objects), the destination holds exactly the source's prior buffer,
size and capacity, and the source is left with `size = 0` and
`capacity = 0`. -/
theorem C5_move_transfer (uninit : α) (a dst : SimpleVector α) :
    ((SimpleVector.moveCtor uninit a).1 = a ∧
     (SimpleVector.moveCtor uninit a).2.size = 0 ∧
     (SimpleVector.moveCtor uninit a).2.capacity = 0) ∧
    ((SimpleVector.assignMove false dst a).1 = a ∧
     (SimpleVector.assignMove false dst a).2.size = 0 ∧
     (SimpleVector.assignMove false dst a).2.capacity = 0) :=
  ⟨⟨rfl, rfl, rfl⟩, ⟨rfl, rfl, rfl⟩⟩

/-- C10: self-assignment is an identity.  The `this != &rhs` guard (the
`self` flag of the embedding) makes both copy assignment and move assignment
on the same object leave the state — buffer, size and capacity — exactly as
it was, with no storage freed or replaced. -/
theorem C10_self_assignment (uninit : α) (a : SimpleVector α) :
    SimpleVector.assignCopy uninit true a a = a ∧
    SimpleVector.assignMove true a a = (a, a) :=
  ⟨rfl, rfl⟩

section CopyReserveLemmas

variable {α : Type}

theorem bufSlice_self (buf : List α) (e : Nat) (h : buf.length ≤ e) :
    bufSlice buf 0 e = buf := by
  unfold bufSlice
  rw [List.drop_zero, Nat.sub_zero, List.take_of_length_le h]

/-- The copy constructor's buffer is exactly the source's live range. -/
theorem copyOf_items (uninit : α) (v : SimpleVector α)
    (h : v.size ≤ v.items.length) :
    (SimpleVector.copyOf uninit v).items = bufSlice v.items 0 v.size := by
  have hl : (bufSlice v.items 0 v.size).length = v.size := by
    rw [bufSlice_length]; omega
  show writeAt (alloc uninit v.size) 0 (bufSlice v.items 0 v.size) = _
  rw [writeAt_zero _ _ (by simp [hl, alloc_length])]
  rw [hl]
  simp [alloc]

/-- A `PushBack` into spare capacity writes in place. -/
theorem PushBack_room (dflt uninit x : α) (v : SimpleVector α)
    (h : v.size < v.capacity) :
    SimpleVector.PushBack dflt uninit x v =
      some { v with items := writeAt v.items v.size [x], size := v.size + 1 } := by
  unfold SimpleVector.PushBack
  rw [if_pos h]

/-- A run of `PushBack`s that fits in the spare capacity succeeds and leaves
the capacity unchanged. -/
theorem pushMany_room (dflt uninit : α) (l : List α) :
    ∀ v : SimpleVector α, v.size + l.length ≤ v.capacity →
      ∃ w, SimpleVector.pushMany dflt uninit l v = some w ∧
        w.capacity = v.capacity ∧ w.size = v.size + l.length := by
  induction l with
  | nil =>
    intro v h
    exact ⟨v, rfl, rfl, by simp⟩
  | cons x xs ih =>
    intro v h
    simp only [List.length_cons] at h
    have hlt : v.size < v.capacity := by omega
    obtain ⟨w, hw, hc, hs⟩ := ih
      { v with items := writeAt v.items v.size [x], size := v.size + 1 }
      (by show v.size + 1 + xs.length ≤ v.capacity; omega)
    refine ⟨w, ?_, hc, ?_⟩
    · show (SimpleVector.PushBack dflt uninit x v).bind _ = some w
      rw [PushBack_room dflt uninit x v hlt, Option.some_bind]
      exact hw
    · have hs2 : w.size = v.size + 1 + xs.length := hs
      show w.size = v.size + (xs.length + 1)
      omega

end CopyReserveLemmas

/-- C8: for any well-formed vector `a`, the copy `SimpleVector(a)` compares
equal to `a` under `operator==` (distinct objects), and its capacity and size
are both exactly `a`'s size.  Storage independence holds by construction in
this embedding: the copy's buffer is a fresh value, and every operation
returns new states, so no mutation of one vector can be observed through the
other. -/
theorem C8_copy_round_trip [DecidableEq α] (uninit : α) (a : SimpleVector α)
    (h : a.size ≤ a.items.length) :
    SimpleVector.eqVec false (SimpleVector.copyOf uninit a) a = true ∧
    (SimpleVector.copyOf uninit a).capacity = a.size ∧
    (SimpleVector.copyOf uninit a).size = a.size := by
  refine ⟨?_, rfl, rfl⟩
  unfold SimpleVector.eqVec
  rw [if_neg (by simp)]
  rw [Bool.and_eq_true, decide_eq_true_eq, decide_eq_true_eq]
  refine ⟨rfl, ?_⟩
  show bufSlice (SimpleVector.copyOf uninit a).items 0 a.size
      = bufSlice a.items 0 a.size
  rw [copyOf_items uninit a h]
  exact bufSlice_self _ _ (by rw [bufSlice_length]; omega)

/-- Witness for C8 at a concrete input. -/
theorem C8_copy_round_trip_witness :
    SimpleVector.eqVec false
        (SimpleVector.copyOf (9 : Int) ⟨[1, 2, 3, 55], 3, 4⟩)
        ⟨[1, 2, 3, 55], 3, 4⟩ = true ∧
    (SimpleVector.copyOf (9 : Int) (⟨[1, 2, 3, 55], 3, 4⟩ : SimpleVector Int)).capacity
        = (⟨[1, 2, 3, 55], 3, 4⟩ : SimpleVector Int).size ∧
    (SimpleVector.copyOf (9 : Int) (⟨[1, 2, 3, 55], 3, 4⟩ : SimpleVector Int)).size
        = (⟨[1, 2, 3, 55], 3, 4⟩ : SimpleVector Int).size :=
  C8_copy_round_trip 9 ⟨[1, 2, 3, 55], 3, 4⟩ (by decide)

/-- C7: `Reserve(n)` with `n > capacity` makes the capacity exactly `n` and
leaves the size and all live elements unchanged; with `n ≤ capacity` it is a
complete no-op.  Consequently (third conjunct) any sequence of `PushBack`s
that fits in the spare capacity — e.g. ten pushes after `Reserve(10)` on an
empty vector — succeeds with the capacity unchanged at every intermediate
step (every prefix of the pushed list). -/
theorem C7_reserve_exact (dflt uninit junk : α) (v : SimpleVector α) (n : Nat)
    (hwf : v.size ≤ v.capacity ∧ v.capacity ≤ v.items.length) :
    (v.capacity < n →
      (SimpleVector.Reserve uninit n v).capacity = n ∧
      (SimpleVector.Reserve uninit n v).size = v.size ∧
      ∀ i, i < v.size →
        (SimpleVector.Reserve uninit n v).items.getD i junk
          = v.items.getD i junk) ∧
    (n ≤ v.capacity → SimpleVector.Reserve uninit n v = v) ∧
    ∀ l : List α, v.size + l.length ≤ v.capacity → ∀ k : Nat,
      ∃ w, SimpleVector.pushMany dflt uninit (l.take k) v = some w ∧
        w.capacity = v.capacity := by
  obtain ⟨hsc, hcl⟩ := hwf
  refine ⟨?_, ?_, ?_⟩
  · intro hn
    unfold SimpleVector.Reserve
    rw [if_pos (show n > v.capacity from hn)]
    refine ⟨rfl, rfl, ?_⟩
    intro i hi
    have hpos : v.size > 0 := by omega
    show (if v.size > 0
        then writeAt (alloc uninit n) 0 (bufSlice v.items 0 v.size)
        else alloc uninit n).getD i junk = v.items.getD i junk
    rw [if_pos hpos]
    have hslen : (bufSlice v.items 0 v.size).length = v.size := by
      rw [bufSlice_length]; omega
    rw [getD_eq, getD_eq,
      getElem?_writeAt _ _ _ (by rw [hslen, alloc_length]; omega),
      if_pos (show 0 ≤ i ∧ i < 0 + (bufSlice v.items 0 v.size).length by
        rw [hslen]; omega)]
    rw [getElem?_bufSlice, if_pos (by omega)]
    simp
  · intro hn
    unfold SimpleVector.Reserve
    rw [if_neg (show ¬ n > v.capacity by omega)]
  · intro l hl k
    obtain ⟨w, hw, hc, _⟩ := pushMany_room dflt uninit (l.take k) v
      (by rw [List.length_take]; omega)
    exact ⟨w, hw, hc⟩

/-- Witness for C7 at the spec's concrete scenario: `Reserve(10)` on the
empty vector, then ten `PushBack`s. -/
theorem C7_reserve_exact_witness :
    ((SimpleVector.mkReserved (9 : Int) 10).capacity < 10 →
      (SimpleVector.Reserve (9 : Int) 10 (SimpleVector.mkReserved 9 10)).capacity = 10 ∧
      (SimpleVector.Reserve (9 : Int) 10 (SimpleVector.mkReserved 9 10)).size
        = (SimpleVector.mkReserved (9 : Int) 10).size ∧
      ∀ i, i < (SimpleVector.mkReserved (9 : Int) 10).size →
        (SimpleVector.Reserve (9 : Int) 10 (SimpleVector.mkReserved 9 10)).items.getD i 0
          = (SimpleVector.mkReserved (9 : Int) 10).items.getD i 0) ∧
    (10 ≤ (SimpleVector.mkReserved (9 : Int) 10).capacity →
      SimpleVector.Reserve (9 : Int) 10 (SimpleVector.mkReserved 9 10)
        = SimpleVector.mkReserved 9 10) ∧
    ∀ l : List Int,
      (SimpleVector.mkReserved (9 : Int) 10).size + l.length
          ≤ (SimpleVector.mkReserved (9 : Int) 10).capacity →
      ∀ k : Nat,
        ∃ w, SimpleVector.pushMany 0 9 (l.take k) (SimpleVector.mkReserved 9 10)
            = some w ∧
          w.capacity = (SimpleVector.mkReserved (9 : Int) 10).capacity :=
  C7_reserve_exact 0 9 0 (SimpleVector.mkReserved 9 10) 10 (by decide)

/-- C3: `PushBack` always succeeds on a well-formed vector: the size grows by
exactly 1, the new element sits at the old size, every previously live
element is unchanged, and the capacity never shrinks — it stays equal when
there was spare room, and becomes `max(capacity + 1, capacity * 2)` (at least
double, and at least 1) when the vector was full. -/
theorem C3_push_back (dflt uninit junk x : α) (v : SimpleVector α)
    (hsc : v.size ≤ v.capacity) (hcl : v.capacity ≤ v.items.length) :
    ∃ w, SimpleVector.PushBack dflt uninit x v = some w ∧
      w.size = v.size + 1 ∧
      w.items.getD v.size junk = x ∧
      (∀ i, i < v.size → w.items.getD i junk = v.items.getD i junk) ∧
      v.capacity ≤ w.capacity ∧
      (v.size < v.capacity → w.capacity = v.capacity) ∧
      (v.size = v.capacity → 2 * v.capacity ≤ w.capacity ∧ 1 ≤ w.capacity) := by
  obtain ⟨it, sz, cp⟩ := v
  have hsc2 : sz ≤ cp := hsc
  have hcl2 : cp ≤ it.length := hcl
  rcases Nat.lt_or_ge sz cp with hlt | hge
  · refine ⟨_, PushBack_room dflt uninit x ⟨it, sz, cp⟩ hlt, rfl, ?_, ?_, le_rfl,
      fun _ => rfl, fun h => absurd (show sz = cp from h) (by omega)⟩
    · show (writeAt it sz [x]).getD sz junk = x
      rw [getD_eq,
        getElem?_writeAt _ _ _ (by simp only [List.length_singleton]; omega),
        if_pos (by simp only [List.length_singleton]; omega)]
      simp
    · intro i hi
      have hi2 : i < sz := hi
      show (writeAt it sz [x]).getD i junk = it.getD i junk
      rw [getD_eq, getD_eq,
        getElem?_writeAt _ _ _ (by simp only [List.length_singleton]; omega),
        if_neg (by simp only [List.length_singleton]; omega)]
  · have heq : sz = cp := Nat.le_antisymm hsc2 hge
    subst heq
    have hS : (bufSlice it 0 sz).length = sz := by
      rw [bufSlice_length]; omega
    have hT : (writeAt (List.replicate (max (sz + 1) (sz * 2)) dflt) 0
        (bufSlice it 0 sz)).length = max (sz + 1) (sz * 2) := by
      rw [writeAt_length, List.length_replicate]
    have hb : sz + [x].length ≤ (writeAt
        (List.replicate (max (sz + 1) (sz * 2)) dflt) 0
        (bufSlice it 0 sz)).length := by
      rw [hT]; simp only [List.length_singleton]; omega
    have hpush : SimpleVector.PushBack dflt uninit x ⟨it, sz, sz⟩ =
        some ⟨writeAt (writeAt (List.replicate (max (sz + 1) (sz * 2)) dflt) 0
                (bufSlice it 0 sz)) sz [x], sz + 1, max (sz + 1) (sz * 2)⟩ := by
      simp only [SimpleVector.PushBack, if_neg (show ¬ sz < sz by omega)]
      rw [if_pos trivial]
      rw [Resize_grow dflt uninit (sz + 1) it sz sz (by omega), Option.map_some']
      simp
    refine ⟨_, hpush, rfl, ?_, ?_, ?_,
      fun h => absurd (show sz < sz from h) (by omega),
      fun _ => ⟨by show 2 * sz ≤ max (sz + 1) (sz * 2); omega,
                by show 1 ≤ max (sz + 1) (sz * 2); omega⟩⟩
    · show (writeAt (writeAt (List.replicate (max (sz + 1) (sz * 2)) dflt) 0
          (bufSlice it 0 sz)) sz [x]).getD sz junk = x
      rw [getD_eq, getElem?_writeAt _ _ _ hb,
        if_pos (by simp only [List.length_singleton]; omega)]
      simp
    · intro i hi
      have hi2 : i < sz := hi
      show (writeAt (writeAt (List.replicate (max (sz + 1) (sz * 2)) dflt) 0
          (bufSlice it 0 sz)) sz [x]).getD i junk = it.getD i junk
      rw [getD_eq, getD_eq, getElem?_writeAt _ _ _ hb,
        if_neg (by simp only [List.length_singleton]; omega),
        getElem?_writeAt _ _ _ (by rw [hS, List.length_replicate]; omega),
        if_pos (by rw [hS]; omega),
        getElem?_bufSlice, if_pos (by omega)]
      simp
    · show sz ≤ max (sz + 1) (sz * 2)
      omega

/-- Witness for C3 at a concrete full vector (`{1,2}` with capacity 2,
pushing `7`). -/
theorem C3_push_back_witness :
    ∃ w, SimpleVector.PushBack (0 : Int) 9 7 ⟨[1, 2], 2, 2⟩ = some w ∧
      w.size = (⟨[1, 2], 2, 2⟩ : SimpleVector Int).size + 1 ∧
      w.items.getD (⟨[1, 2], 2, 2⟩ : SimpleVector Int).size 0 = 7 ∧
      (∀ i, i < (⟨[1, 2], 2, 2⟩ : SimpleVector Int).size →
        w.items.getD i 0 = (⟨[1, 2], 2, 2⟩ : SimpleVector Int).items.getD i 0) ∧
      (⟨[1, 2], 2, 2⟩ : SimpleVector Int).capacity ≤ w.capacity ∧
      ((⟨[1, 2], 2, 2⟩ : SimpleVector Int).size
          < (⟨[1, 2], 2, 2⟩ : SimpleVector Int).capacity →
        w.capacity = (⟨[1, 2], 2, 2⟩ : SimpleVector Int).capacity) ∧
      ((⟨[1, 2], 2, 2⟩ : SimpleVector Int).size
          = (⟨[1, 2], 2, 2⟩ : SimpleVector Int).capacity →
        2 * (⟨[1, 2], 2, 2⟩ : SimpleVector Int).capacity ≤ w.capacity ∧
        1 ≤ w.capacity) :=
  C3_push_back 0 9 0 7 ⟨[1, 2], 2, 2⟩ (by decide) (by decide)

section InsertLemmas

variable {α : Type}

/-- The shared in-place insert branch (`size_ < capacity_`) of both `Insert`
overloads: shift `[count, size_)` one slot right, write `value` at `count`.
It satisfies the insertion postcondition. -/
theorem insert_inplace_spec (junk value : α) (count : Nat) (it : List α)
    (sz cp : Nat) (hc : count ≤ sz) (hlen : sz < it.length) :
    InsertSpec junk count value ⟨it, sz, cp⟩
      (count, ⟨writeAt (writeAt it (count + 1) (bufSlice it count sz))
                 count [value], sz + 1, cp⟩) := by
  have hS : (bufSlice it count sz).length = sz - count := by
    rw [bufSlice_length]; omega
  have hInner : (writeAt it (count + 1) (bufSlice it count sz)).length
      = it.length := writeAt_length _ _ _
  have hOuterB : count + [value].length
      ≤ (writeAt it (count + 1) (bufSlice it count sz)).length := by
    rw [hInner]; simp only [List.length_singleton]; omega
  have hInnerB : count + 1 + (bufSlice it count sz).length ≤ it.length := by
    rw [hS]; omega
  refine ⟨rfl, rfl, ?_, ?_, ?_⟩
  · intro i hi
    have c1 : ¬ (count ≤ i ∧ i < count + [value].length) := by
      simp only [List.length_singleton]; omega
    have c2 : ¬ (count + 1 ≤ i ∧ i < count + 1 + (bufSlice it count sz).length) := by
      rw [hS]; omega
    show (writeAt (writeAt it (count + 1) (bufSlice it count sz))
        count [value]).getD i junk = it.getD i junk
    rw [getD_eq, getD_eq, getElem?_writeAt _ _ _ hOuterB, if_neg c1,
      getElem?_writeAt _ _ _ hInnerB, if_neg c2]
  · have c1 : count ≤ count ∧ count < count + [value].length := by
      simp only [List.length_singleton]; omega
    show (writeAt (writeAt it (count + 1) (bufSlice it count sz))
        count [value]).getD count junk = value
    rw [getD_eq, getElem?_writeAt _ _ _ hOuterB, if_pos c1]
    simp
  · intro i h1 h2
    have h2b : i ≤ sz := h2
    have c1 : ¬ (count ≤ i ∧ i < count + [value].length) := by
      simp only [List.length_singleton]; omega
    have c2 : count + 1 ≤ i ∧ i < count + 1 + (bufSlice it count sz).length := by
      rw [hS]; omega
    show (writeAt (writeAt it (count + 1) (bufSlice it count sz))
        count [value]).getD i junk = it.getD (i - 1) junk
    rw [getD_eq, getD_eq, getElem?_writeAt _ _ _ hOuterB, if_neg c1,
      getElem?_writeAt _ _ _ hInnerB, if_pos c2,
      getElem?_bufSlice, if_pos (show i - (count + 1) < sz - count by omega)]
    have he : count + (i - (count + 1)) = i - 1 := by omega
    rw [he]

/-- The reallocating branch of the copy `Insert` overload: fresh buffer,
copy the prefix, write `value`, copy the suffix.  It satisfies the insertion
postcondition. -/
theorem insert_realloc_copy_spec (uninit junk value : α) (count : Nat)
    (it : List α) (sz cp : Nat) (hc : count ≤ sz) (hsl : sz ≤ it.length)
    (nc : Nat) (hnc : sz + 1 ≤ nc) :
    InsertSpec junk count value ⟨it, sz, cp⟩
      (count, ⟨writeAt (writeAt (writeAt (alloc uninit nc) 0
                 (bufSlice it 0 count)) count [value]) (count + 1)
                 (bufSlice it count sz), sz + 1, nc⟩) := by
  have hP : (bufSlice it 0 count).length = count := by
    rw [bufSlice_length]; omega
  have hS : (bufSlice it count sz).length = sz - count := by
    rw [bufSlice_length]; omega
  have hL1 : (writeAt (alloc uninit nc) 0 (bufSlice it 0 count)).length = nc := by
    rw [writeAt_length, alloc_length]
  have hL2 : (writeAt (writeAt (alloc uninit nc) 0 (bufSlice it 0 count))
      count [value]).length = nc := by
    rw [writeAt_length, hL1]
  have hB1 : 0 + (bufSlice it 0 count).length ≤ (alloc uninit nc).length := by
    rw [hP, alloc_length]; omega
  have hB2 : count + [value].length
      ≤ (writeAt (alloc uninit nc) 0 (bufSlice it 0 count)).length := by
    rw [hL1]; simp only [List.length_singleton]; omega
  have hB3 : count + 1 + (bufSlice it count sz).length
      ≤ (writeAt (writeAt (alloc uninit nc) 0 (bufSlice it 0 count))
          count [value]).length := by
    rw [hL2, hS]; omega
  refine ⟨rfl, rfl, ?_, ?_, ?_⟩
  · intro i hi
    have cS : ¬ (count + 1 ≤ i ∧ i < count + 1 + (bufSlice it count sz).length) := by
      rw [hS]; omega
    have cV : ¬ (count ≤ i ∧ i < count + [value].length) := by
      simp only [List.length_singleton]; omega
    have cP : 0 ≤ i ∧ i < 0 + (bufSlice it 0 count).length := by
      rw [hP]; omega
    show (writeAt (writeAt (writeAt (alloc uninit nc) 0 (bufSlice it 0 count))
        count [value]) (count + 1) (bufSlice it count sz)).getD i junk
        = it.getD i junk
    rw [getD_eq, getD_eq,
      getElem?_writeAt _ _ _ hB3, if_neg cS,
      getElem?_writeAt _ _ _ hB2, if_neg cV,
      getElem?_writeAt _ _ _ hB1, if_pos cP,
      getElem?_bufSlice, if_pos (show i - 0 < count - 0 by omega)]
    have he : 0 + (i - 0) = i := by omega
    rw [he]
  · have cS : ¬ (count + 1 ≤ count ∧ count < count + 1 + (bufSlice it count sz).length) := by
      rw [hS]; omega
    have cV : count ≤ count ∧ count < count + [value].length := by
      simp only [List.length_singleton]; omega
    show (writeAt (writeAt (writeAt (alloc uninit nc) 0 (bufSlice it 0 count))
        count [value]) (count + 1) (bufSlice it count sz)).getD count junk
        = value
    rw [getD_eq,
      getElem?_writeAt _ _ _ hB3, if_neg cS,
      getElem?_writeAt _ _ _ hB2, if_pos cV]
    simp
  · intro i h1 h2
    have h2b : i ≤ sz := h2
    have cS : count + 1 ≤ i ∧ i < count + 1 + (bufSlice it count sz).length := by
      rw [hS]; omega
    show (writeAt (writeAt (writeAt (alloc uninit nc) 0 (bufSlice it 0 count))
        count [value]) (count + 1) (bufSlice it count sz)).getD i junk
        = it.getD (i - 1) junk
    rw [getD_eq, getD_eq,
      getElem?_writeAt _ _ _ hB3, if_pos cS,
      getElem?_bufSlice, if_pos (show i - (count + 1) < sz - count by omega)]
    have he : count + (i - (count + 1)) = i - 1 := by omega
    rw [he]

/-- The reallocating branch of the move `Insert` overload: fresh buffer,
move all of `[0, size_)` in, re-move the suffix one slot right, write
`value` at `count` (element moves are value copies in this embedding).  It
satisfies the insertion postcondition. -/
theorem insert_realloc_move_spec (uninit junk value : α) (count : Nat)
    (it : List α) (sz cp : Nat) (hc : count ≤ sz) (hsl : sz ≤ it.length)
    (nc : Nat) (hnc : sz + 1 ≤ nc) :
    InsertSpec junk count value ⟨it, sz, cp⟩
      (count, ⟨writeAt (writeAt (writeAt (alloc uninit nc) 0
                 (bufSlice it 0 sz)) (count + 1) (bufSlice it count sz))
                 count [value], sz + 1, nc⟩) := by
  have hA : (bufSlice it 0 sz).length = sz := by
    rw [bufSlice_length]; omega
  have hS : (bufSlice it count sz).length = sz - count := by
    rw [bufSlice_length]; omega
  have hL1 : (writeAt (alloc uninit nc) 0 (bufSlice it 0 sz)).length = nc := by
    rw [writeAt_length, alloc_length]
  have hL2 : (writeAt (writeAt (alloc uninit nc) 0 (bufSlice it 0 sz))
      (count + 1) (bufSlice it count sz)).length = nc := by
    rw [writeAt_length, hL1]
  have hB1 : 0 + (bufSlice it 0 sz).length ≤ (alloc uninit nc).length := by
    rw [hA, alloc_length]; omega
  have hB2 : count + 1 + (bufSlice it count sz).length
      ≤ (writeAt (alloc uninit nc) 0 (bufSlice it 0 sz)).length := by
    rw [hL1, hS]; omega
  have hB3 : count + [value].length
      ≤ (writeAt (writeAt (alloc uninit nc) 0 (bufSlice it 0 sz))
          (count + 1) (bufSlice it count sz)).length := by
    rw [hL2]; simp only [List.length_singleton]; omega
  refine ⟨rfl, rfl, ?_, ?_, ?_⟩
  · intro i hi
    have cV : ¬ (count ≤ i ∧ i < count + [value].length) := by
      simp only [List.length_singleton]; omega
    have cS : ¬ (count + 1 ≤ i ∧ i < count + 1 + (bufSlice it count sz).length) := by
      rw [hS]; omega
    have cA : 0 ≤ i ∧ i < 0 + (bufSlice it 0 sz).length := by
      rw [hA]; omega
    show (writeAt (writeAt (writeAt (alloc uninit nc) 0 (bufSlice it 0 sz))
        (count + 1) (bufSlice it count sz)) count [value]).getD i junk
        = it.getD i junk
    rw [getD_eq, getD_eq,
      getElem?_writeAt _ _ _ hB3, if_neg cV,
      getElem?_writeAt _ _ _ hB2, if_neg cS,
      getElem?_writeAt _ _ _ hB1, if_pos cA,
      getElem?_bufSlice, if_pos (show i - 0 < sz - 0 by omega)]
    have he : 0 + (i - 0) = i := by omega
    rw [he]
  · have cV : count ≤ count ∧ count < count + [value].length := by
      simp only [List.length_singleton]; omega
    show (writeAt (writeAt (writeAt (alloc uninit nc) 0 (bufSlice it 0 sz))
        (count + 1) (bufSlice it count sz)) count [value]).getD count junk
        = value
    rw [getD_eq, getElem?_writeAt _ _ _ hB3, if_pos cV]
    simp
  · intro i h1 h2
    have h2b : i ≤ sz := h2
    have cV : ¬ (count ≤ i ∧ i < count + [value].length) := by
      simp only [List.length_singleton]; omega
    have cS : count + 1 ≤ i ∧ i < count + 1 + (bufSlice it count sz).length := by
      rw [hS]; omega
    show (writeAt (writeAt (writeAt (alloc uninit nc) 0 (bufSlice it 0 sz))
        (count + 1) (bufSlice it count sz)) count [value]).getD i junk
        = it.getD (i - 1) junk
    rw [getD_eq, getD_eq,
      getElem?_writeAt _ _ _ hB3, if_neg cV,
      getElem?_writeAt _ _ _ hB2, if_pos cS,
      getElem?_bufSlice, if_pos (show i - (count + 1) < sz - count by omega)]
    have he : count + (i - (count + 1)) = i - 1 := by omega
    rw [he]

end InsertLemmas

/-- C6: both `Insert` overloads, at any position `count ≤ size` of a
well-formed vector, produce the prefix before the position, then `value`,
then the former suffix shifted one slot right; the size grows by exactly 1
and the returned iterator points at the inserted element (offset `count`,
whose entry is `value`). -/
theorem C6_insert (uninit junk : α) (count : Nat) (value : α)
    (v : SimpleVector α) (hc : count ≤ v.size) (hsc : v.size ≤ v.capacity)
    (hcl : v.capacity ≤ v.items.length) :
    InsertSpec junk count value v
      (SimpleVector.InsertCopy uninit count value v) ∧
    InsertSpec junk count value v
      (SimpleVector.InsertMove uninit count value v) := by
  obtain ⟨it, sz, cp⟩ := v
  have hc2 : count ≤ sz := hc
  have hsc2 : sz ≤ cp := hsc
  have hcl2 : cp ≤ it.length := hcl
  constructor
  · rcases Nat.lt_or_ge sz cp with hlt | hge
    · have hdef : SimpleVector.InsertCopy uninit count value ⟨it, sz, cp⟩ =
          (count, ⟨writeAt (writeAt it (count + 1) (bufSlice it count sz))
                     count [value], sz + 1, cp⟩) := by
        simp only [SimpleVector.InsertCopy, if_pos hlt]
      rw [hdef]
      exact insert_inplace_spec junk value count it sz cp hc2 (by omega)
    · have hdef : SimpleVector.InsertCopy uninit count value ⟨it, sz, cp⟩ =
          (count, ⟨writeAt (writeAt (writeAt
                     (alloc uninit (max (sz + 1) (cp * 2))) 0
                     (bufSlice it 0 count)) count [value]) (count + 1)
                     (bufSlice it count sz), sz + 1, max (sz + 1) (cp * 2)⟩) := by
        simp only [SimpleVector.InsertCopy, if_neg (show ¬ sz < cp by omega)]
      rw [hdef]
      exact insert_realloc_copy_spec uninit junk value count it sz cp hc2
        (by omega) _ (by omega)
  · by_cases hz : cp = 0
    · subst hz
      have hsz : sz = 0 := by omega
      subst hsz
      have hct : count = 0 := by omega
      subst hct
      have hdef : SimpleVector.InsertMove uninit 0 value ⟨it, 0, 0⟩ =
          (0, ⟨writeAt (alloc uninit 1) 0 [value], 0 + 1, 0 + 1⟩) := by
        simp only [SimpleVector.InsertMove]
        rw [if_pos trivial]
      rw [hdef]
      refine ⟨rfl, rfl, fun i hi => absurd hi (by omega), ?_,
        fun i h1 h2 => absurd (show 0 < i ∧ i ≤ 0 from ⟨h1, h2⟩) (by omega)⟩
      show (writeAt (alloc uninit 1) 0 [value]).getD 0 junk = value
      rw [writeAt_zero _ _ (by simp [alloc])]
      simp [alloc]
    · rcases Nat.lt_or_ge sz cp with hlt | hge
      · have hdef : SimpleVector.InsertMove uninit count value ⟨it, sz, cp⟩ =
            (count, ⟨writeAt (writeAt it (count + 1) (bufSlice it count sz))
                       count [value], sz + 1, cp⟩) := by
          simp only [SimpleVector.InsertMove, if_neg hz, if_pos hlt]
        rw [hdef]
        exact insert_inplace_spec junk value count it sz cp hc2 (by omega)
      · have hdef : SimpleVector.InsertMove uninit count value ⟨it, sz, cp⟩ =
            (count, ⟨writeAt (writeAt (writeAt
                       (alloc uninit (max (sz + 1) (cp * 2))) 0
                       (bufSlice it 0 sz)) (count + 1) (bufSlice it count sz))
                       count [value], sz + 1, max (sz + 1) (cp * 2)⟩) := by
          simp only [SimpleVector.InsertMove, if_neg hz,
            if_neg (show ¬ sz < cp by omega)]
        rw [hdef]
        exact insert_realloc_move_spec uninit junk value count it sz cp hc2
          (by omega) _ (by omega)

/-- Witness for C6 at the spec's concrete example: insert `0` at `begin()`
of the full vector `{1,2,3}`. -/
theorem C6_insert_witness :
    InsertSpec (0 : Int) 0 0 ⟨[1, 2, 3], 3, 3⟩
      (SimpleVector.InsertCopy 9 0 0 ⟨[1, 2, 3], 3, 3⟩) ∧
    InsertSpec (0 : Int) 0 0 ⟨[1, 2, 3], 3, 3⟩
      (SimpleVector.InsertMove 9 0 0 ⟨[1, 2, 3], 3, 3⟩) :=
  C6_insert 9 0 0 0 ⟨[1, 2, 3], 3, 3⟩ (by decide) (by decide) (by decide)

section InvariantLemmas

variable {α : Type}

theorem PushBack_inv (dflt uninit x : α) (v w : SimpleVector α)
    (hv : v.size ≤ v.capacity)
    (hw : SimpleVector.PushBack dflt uninit x v = some w) :
    w.size ≤ w.capacity := by
  unfold SimpleVector.PushBack at hw
  by_cases h1 : v.size < v.capacity
  · rw [if_pos h1] at hw
    cases hw
    show v.size + 1 ≤ v.capacity
    omega
  · rw [if_neg h1, if_pos (show v.size = v.capacity by omega)] at hw
    cases hF : SimpleVector.Resize dflt uninit (v.capacity + 1) v with
    | none => rw [hF] at hw; cases hw
    | some u =>
      rw [hF, Option.map_some'] at hw
      cases hw
      show u.size ≤ u.capacity
      exact Resize_inv dflt uninit (v.capacity + 1) v u hv hF

theorem InsertCopy_inv (uninit x : α) (count : Nat) (v : SimpleVector α)
    (hv : v.size ≤ v.capacity) :
    (SimpleVector.InsertCopy uninit count x v).2.size
      ≤ (SimpleVector.InsertCopy uninit count x v).2.capacity := by
  unfold SimpleVector.InsertCopy
  by_cases h1 : v.size < v.capacity
  · rw [if_pos h1]
    show v.size + 1 ≤ v.capacity
    omega
  · rw [if_neg h1]
    show v.size + 1 ≤ max (v.size + 1) (v.capacity * 2)
    omega

theorem InsertMove_inv (uninit x : α) (count : Nat) (v : SimpleVector α)
    (hv : v.size ≤ v.capacity) :
    (SimpleVector.InsertMove uninit count x v).2.size
      ≤ (SimpleVector.InsertMove uninit count x v).2.capacity := by
  unfold SimpleVector.InsertMove
  by_cases h0 : v.capacity = 0
  · rw [if_pos h0]
    show v.size + 1 ≤ v.capacity + 1
    omega
  · rw [if_neg h0]
    by_cases h1 : v.size < v.capacity
    · rw [if_pos h1]
      show v.size + 1 ≤ v.capacity
      omega
    · rw [if_neg h1]
      show v.size + 1 ≤ max (v.size + 1) (v.capacity * 2)
      omega

theorem Reserve_inv (uninit : α) (n : Nat) (v : SimpleVector α)
    (hv : v.size ≤ v.capacity) :
    (SimpleVector.Reserve uninit n v).size
      ≤ (SimpleVector.Reserve uninit n v).capacity := by
  unfold SimpleVector.Reserve
  by_cases h : n > v.capacity
  · rw [if_pos h]
    show v.size ≤ n
    omega
  · rw [if_neg h]
    exact hv

end InvariantLemmas

/-- C9: the invariant `size ≤ capacity` holds in every state reachable from
any of the public constructors through any sequence of the public
operations (`PushBack`, `PopBack`, `Insert` in both overloads, `Erase`,
`Resize`, `Reserve`, `Clear`, `swap`, copy and move construction and
assignment), each taken with its documented preconditions. -/
theorem C9_size_le_capacity (dflt uninit : α) (v : SimpleVector α)
    (h : SimpleVector.Reachable dflt uninit v) : v.size ≤ v.capacity := by
  induction h with
  | dflt_ctor => exact le_rfl
  | sized n => exact le_rfl
  | fill n value => exact le_rfl
  | init_list l => exact le_rfl
  | reserved n => exact Reserve_inv uninit n SimpleVector.mkDefault le_rfl
  | copy_ctor w hw ih => exact le_rfl
  | move_ctor_new w hw ih => exact ih
  | move_ctor_src w hw ih => exact le_rfl
  | push x w u hw hpush ih => exact PushBack_inv dflt uninit x w u ih hpush
  | pop w hw hpos ih =>
    show w.size - 1 ≤ w.capacity
    omega
  | insert_copy count x w hw hcount ih => exact InsertCopy_inv uninit x count w ih
  | insert_move count x w hw hcount ih => exact InsertMove_inv uninit x count w ih
  | erase count w hw hcount ih =>
    show w.size - 1 ≤ w.capacity
    omega
  | resize n w u hw hres ih => exact Resize_inv dflt uninit n w u ih hres
  | reserve n w hw ih => exact Reserve_inv uninit n w ih
  | clear w hw ih => exact Nat.zero_le _
  | swap_fst a b ha hb iha ihb => exact ihb
  | swap_snd a b ha hb iha ihb => exact iha
  | assign_copy self dst src hdst hsrc ihdst ihsrc =>
    cases self
    · exact le_rfl
    · exact ihdst
  | assign_move_dst self dst src hdst hsrc ihdst ihsrc =>
    cases self
    · exact ihsrc
    · exact ihdst
  | assign_move_src self dst src hdst hsrc ihdst ihsrc =>
    cases self
    · exact le_rfl
    · exact ihsrc

/-- Witness for C9 at a concrete reachable state: `SimpleVector(2, 5)`
followed by `PopBack`. -/
theorem C9_size_le_capacity_witness :
    (SimpleVector.PopBack (SimpleVector.mkFill 2 (5 : Int))).size
      ≤ (SimpleVector.PopBack (SimpleVector.mkFill 2 (5 : Int))).capacity :=
  C9_size_le_capacity 0 9 _
    (SimpleVector.Reachable.pop _ (SimpleVector.Reachable.fill 2 5) (by decide))
